import Mathlib

/-!
Verification of the SQLess `cql idminer` proof-of-work identity miner
(`src/cmd/cql/internal/idminer.go`) against its specification.

The miner searches for a 256-bit nonce such that hashing a public key
together with the nonce yields a digest whose difficulty meets a target.
The `cpuminer` package (the `Uint256` wide integer, the hash oracle
`HashBlock`/`Difficulty`, and the continuous-mode worker
`ComputeBlockNonce`) is not part of the provided source slice, so those
parts are modelled from the specification; everything in `idminer.go`
itself (partitioning, the inline one-shot worker loop, winner selection,
result reporting) is embedded directly from the source.

The hash oracle is external to the miner, so definitions and theorems are
parameterised over an arbitrary deterministic `hashBlock` function and an
arbitrary difficulty measure `diffOf`.
-/

namespace SQLess

/-- `2^64`, the limb modulus of the wide integer. -/
def u64 : Nat := 2 ^ 64

/-- Modelled from the spec: `Uint256` of the cpuminer package (absent from
`src/`) — "four 64-bit unsigned limbs (most-significant to
least-significant, call them A,B,C,D)".  Limbs are kept as naturals; Go's
64-bit wraparound is applied explicitly (`% u64`) by the operations that
can overflow. -/
structure Uint256 where
  A : Nat
  B : Nat
  C : Nat
  D : Nat
  deriving DecidableEq, Repr

/-- The natural-number value of a `Uint256`: `A` is the most significant
limb, `D` the least significant. -/
def Uint256.val (x : Uint256) : Nat :=
  x.A * 2 ^ 192 + x.B * 2 ^ 128 + x.C * 2 ^ 64 + x.D

/-- Modelled from the spec: `Increment()` of the cpuminer package (absent
from `src/`) — "adds 1, propagating carry from least-significant to
most-significant limb; wraps silently on full overflow". -/
def Uint256.inc (x : Uint256) : Uint256 :=
  if x.D = u64 - 1 then
    if x.C = u64 - 1 then
      if x.B = u64 - 1 then
        ⟨(x.A + 1) % u64, 0, 0, 0⟩
      else
        ⟨x.A, x.B + 1, 0, 0⟩
    else
      ⟨x.A, x.B, x.C + 1, 0⟩
  else
    ⟨x.A, x.B, x.C, x.D + 1⟩

/-- `mine.NonceInfo`: the result record a worker sends on its nonce
channel — the found nonce, its difficulty, and the digest (modelled as a
natural).  Field names follow the Go struct. -/
structure NonceInfo where
  Nonce : Uint256
  Difficulty : Nat
  Hash : Nat
  deriving DecidableEq, Repr

/-- `mine.NonceInfo{}`: the zero value of the result record, used as the
initial winner accumulator in `nonceLoop`. -/
def zeroNonceInfo : NonceInfo := ⟨⟨0, 0, 0, 0⟩, 0, 0⟩

/-! ### Work partitioning -/

/-- `idminer.go` lines 139–157 (one-shot mode, inside `nonceGen`): worker
`i` of `n` computes `startBit = i * (256 / n)`, `position = startBit / 64`,
`shift = startBit % 64`, and sets limb number `position` (in declaration
order `A`, `B`, `C`, `D`) to `1<<shift + uint64(rand.Uint32())`; `off` is
the raw random draw, reduced `% 2^32` as by `rand.Uint32()`.  If no branch
matches, `start` keeps its zero value, exactly as in the Go `if`/`else if`
chain. -/
def nonceGenStart (n i off : Nat) : Uint256 :=
  let step := 256 / n
  let startBit := i * step
  let position := startBit / 64
  let shift := startBit % 64
  let limb := (2 ^ shift + off % 2 ^ 32) % u64
  if position = 0 then ⟨limb, 0, 0, 0⟩
  else if position = 1 then ⟨0, limb, 0, 0⟩
  else if position = 2 then ⟨0, 0, limb, 0⟩
  else if position = 3 then ⟨0, 0, 0, limb⟩
  else ⟨0, 0, 0, 0⟩

/-- `idminer.go` line 86 (continuous mode): `step := math.MaxUint64 /
uint64(cpuCount)`. -/
def nonceLoopStep (n : Nat) : Nat := (u64 - 1) / n

/-- `idminer.go` line 99 (continuous mode): `start := mine.Uint256{D:
step*uint64(i) + uint64(rand.Uint32())}` — only the least-significant limb
`D` is set, with 64-bit wraparound. -/
def nonceLoopStart (n i off : Nat) : Uint256 :=
  ⟨0, 0, 0, (nonceLoopStep n * i + off % 2 ^ 32) % u64⟩

/-! ### The one-shot worker loop -/

/-- `idminer.go` lines 159–177: the inline one-shot worker.  Each
iteration polls the stop channel (`stop k` says whether the stop channel
is closed at the worker's `k`-th poll), otherwise hashes the public key
with the current nonce `j`, reports the observed difficulty on the
progress stream (second component), and either sends a `NonceInfo` and
returns (difficulty reached the target) or increments `j` and continues.
`fuel` bounds the number of iterations so the search is a total function;
running out of fuel models a still-running worker (`none`). -/
def nonceSearch (hashBlock : List Nat → Uint256 → Nat) (diffOf : Nat → Nat)
    (pk : List Nat) (target : Nat) (stop : Nat → Bool) :
    Nat → Nat → Uint256 → Option NonceInfo × List Nat
  | 0, _, _ => (none, [])
  | fuel + 1, k, j =>
    if stop k then (none, [])
    else
      let currentHash := hashBlock pk j
      let currentDifficulty := diffOf currentHash
      if target ≤ currentDifficulty then
        (some ⟨j, currentDifficulty, currentHash⟩, [currentDifficulty])
      else
        let rest := nonceSearch hashBlock diffOf pk target stop fuel (k + 1) (Uint256.inc j)
        (rest.1, currentDifficulty :: rest.2)

/-- A stop schedule under which the stop channel is never observed
closed — in `nonceGen` the coordinator only closes `stopCh` after the
first result has been delivered, so the winning worker's own run sees an
open stop channel throughout. -/
def stopNever : Nat → Bool := fun _ => false

/-- `idminer.go` line 205 (`nonce := <-nonceCh`): the coordinator takes
the first result delivered on the shared nonce channel; delivery order is
modelled as worker-index order. -/
def firstResult : List (Option NonceInfo) → Option NonceInfo
  | [] => none
  | some r :: _ => some r
  | none :: rest => firstResult rest

/-- `nonceGen`, one-shot mode, composed: spawn `n` workers on bit-sliced
partitions (`offs i` is worker `i`'s random draw), run each for at most
`fuel` iterations with the stop channel never closed before the first
delivery, and take the first delivered result. -/
def nonceGenRun (hashBlock : List Nat → Uint256 → Nat) (diffOf : Nat → Nat)
    (pk : List Nat) (target n fuel : Nat) (offs : Nat → Nat) : Option NonceInfo :=
  firstResult ((List.range n).map fun i =>
    (nonceSearch hashBlock diffOf pk target stopNever fuel 0
      (nonceGenStart n i (offs i))).1)

/-! ### Continuous-mode worker and collection -/

/-- Modelled from the spec: `ComputeBlockNonce` of the cpuminer package
(absent from `src/`), the continuous-mode worker launched at
`idminer.go` line 101.  Per the spec's worker contract (§4.3) it checks
the cancellation signal each iteration and, "if set, stop[s] immediately
without reporting a result"; otherwise it hashes and, on difficulty ≥
target, sends the nonce on its channel.  `stopAt` is the iteration index
at which the worker observes its stop channel closed; the returned value
is what the worker sent on its nonce channel (`none` = nothing sent). -/
def computeBlockNonce (hashBlock : List Nat → Uint256 → Nat) (diffOf : Nat → Nat)
    (pk : List Nat) (target stopAt : Nat) :
    Nat → Nat → Uint256 → Option NonceInfo
  | 0, _, _ => none
  | fuel + 1, k, j =>
    if stopAt ≤ k then none
    else
      let currentHash := hashBlock pk j
      let currentDifficulty := diffOf currentHash
      if target ≤ currentDifficulty then some ⟨j, currentDifficulty, currentHash⟩
      else computeBlockNonce hashBlock diffOf pk target stopAt fuel (k + 1) (Uint256.inc j)

/-- `idminer.go` lines 113–114: after broadcasting cancellation the
coordinator performs one blocking read per worker (`<-nonceChs[i]`).  The
input lists, per worker, what that worker sent on its private channel;
the read can only complete if every worker sent something, so the
collection phase as a whole yields `none` (the coordinator blocks
forever) as soon as one worker sent nothing. -/
def collectAll : List (Option NonceInfo) → Option (List NonceInfo)
  | [] => some []
  | none :: _ => none
  | some r :: rest => (collectAll rest).map fun l => r :: l

/-! ### Winner selection (continuous mode) -/

/-- `idminer.go` lines 112–118, the accumulator form: `max` starts at the
zero `NonceInfo` and is replaced by a collected result exactly when the
result's difficulty is strictly greater (`max.Difficulty <
newNonce.Difficulty`). -/
def selectMaxFrom (acc : NonceInfo) : List NonceInfo → NonceInfo
  | [] => acc
  | r :: rest => selectMaxFrom (if acc.Difficulty < r.Difficulty then r else acc) rest

/-- The continuous-mode winner: the fold of `selectMaxFrom` started at
`mine.NonceInfo{}`. -/
def selectMax (rs : List NonceInfo) : NonceInfo := selectMaxFrom zeroNonceInfo rs

/-- The maximum difficulty over a list of collected results (0 for the
empty list). -/
def maxDifficulty (rs : List NonceInfo) : Nat :=
  (rs.map NonceInfo.Difficulty).foldr Nat.max 0

/-! ### Result reporting -/

/-- The observable output actions at the tail of either mode: the
continuous mode's verification log line, the one-shot mode's fatal abort
(`logrus` `Fatal` terminates the process), and the two result print
lines. -/
inductive OutEvent
  | verifyLog (ok : Bool)
  | fatalLog (r : NonceInfo)
  | printNonce (r : NonceInfo)
  | printNodeID (h : Nat)
  deriving DecidableEq, Repr

/-- `idminer.go` lines 120–125: continuous mode logs the verification
outcome and then unconditionally prints the winning nonce and node id. -/
def nonceLoopTail (ok : Bool) (max : NonceInfo) : List OutEvent :=
  [OutEvent.verifyLog ok, OutEvent.printNonce max, OutEvent.printNodeID max.Hash]

/-- `idminer.go` lines 210–220: one-shot mode halts fatally when
verification fails (nothing further is printed); otherwise it prints the
nonce and node id. -/
def nonceGenTail (ok : Bool) (r : NonceInfo) : List OutEvent :=
  if ok then [OutEvent.printNonce r, OutEvent.printNodeID r.Hash]
  else [OutEvent.fatalLog r]

/-! ### The progress channel -/

/-- `idminer.go` lines 135 and 166: the progress channel is created with
`make(chan int, 100)` and written with a plain send `progressCh <-
currentDifficulty`.  One send step: if the buffer (current contents
`buf`) has fewer than 100 entries the value is enqueued; otherwise the
send blocks (`none`) until a receiver drains the buffer. -/
def progressSend (buf : List Nat) (v : Nat) : Option (List Nat) :=
  if buf.length < 100 then some (buf ++ [v]) else none

/-- Claimed behaviour of the progress send, from the spec's words: "a
full progress channel must not stall the search; excess samples may be
dropped" — enqueue when there is room, drop the sample when full, never
block. -/
def progressSendSpec (buf : List Nat) (v : Nat) : List Nat :=
  if buf.length < 100 then buf ++ [v] else buf

/-! ### Concrete oracle instances used by witnesses -/

/-- A concrete hash oracle instance: the digest is the least-significant
limb of the nonce. -/
def hashD : List Nat → Uint256 → Nat := fun _ j => j.D

/-- A concrete difficulty measure: the digest value itself. -/
def diffId : Nat → Nat := fun h => h

/-- A concrete random-offset assignment: every worker draws 0. -/
def offsZero : Nat → Nat := fun _ => 0

/-! ## Lemmas about the continuous-mode winner fold -/

theorem selectMaxFrom_diff_le (rs : List NonceInfo) :
    ∀ acc : NonceInfo, acc.Difficulty ≤ (selectMaxFrom acc rs).Difficulty := by
  induction rs with
  | nil => intro acc; exact Nat.le_refl _
  | cons r rest ih =>
    intro acc
    simp only [selectMaxFrom]
    by_cases h : acc.Difficulty < r.Difficulty
    · rw [if_pos h]; exact Nat.le_trans (Nat.le_of_lt h) (ih r)
    · rw [if_neg h]; exact ih acc

theorem selectMaxFrom_le (rs : List NonceInfo) :
    ∀ acc : NonceInfo, ∀ r ∈ rs, r.Difficulty ≤ (selectMaxFrom acc rs).Difficulty := by
  induction rs with
  | nil => intro acc r hr; exact absurd hr (List.not_mem_nil r)
  | cons q rest ih =>
    intro acc r hr
    simp only [selectMaxFrom]
    rcases List.mem_cons.mp hr with h | h
    · subst h
      by_cases hq : acc.Difficulty < r.Difficulty
      · rw [if_pos hq]; exact selectMaxFrom_diff_le rest r
      · rw [if_neg hq]
        exact Nat.le_trans (Nat.le_of_not_lt hq) (selectMaxFrom_diff_le rest acc)
    · exact ih _ r h

theorem selectMaxFrom_eq_of_le (rs : List NonceInfo) :
    ∀ acc : NonceInfo, (selectMaxFrom acc rs).Difficulty ≤ acc.Difficulty →
      selectMaxFrom acc rs = acc := by
  induction rs with
  | nil => intro acc _; rfl
  | cons r rest ih =>
    intro acc h
    simp only [selectMaxFrom] at h ⊢
    by_cases hq : acc.Difficulty < r.Difficulty
    · rw [if_pos hq] at h ⊢
      have : r.Difficulty ≤ acc.Difficulty :=
        Nat.le_trans (selectMaxFrom_diff_le rest r) h
      omega
    · rw [if_neg hq] at h ⊢
      exact ih acc h

theorem selectMaxFrom_mem (rs : List NonceInfo) :
    ∀ acc : NonceInfo, selectMaxFrom acc rs = acc ∨
      (selectMaxFrom acc rs ∈ rs ∧ acc.Difficulty < (selectMaxFrom acc rs).Difficulty) := by
  induction rs with
  | nil => intro acc; left; rfl
  | cons r rest ih =>
    intro acc
    simp only [selectMaxFrom]
    by_cases hq : acc.Difficulty < r.Difficulty
    · rw [if_pos hq]
      rcases ih r with h | ⟨hm, hlt⟩
      · right
        refine ⟨?_, ?_⟩
        · rw [h]; exact List.mem_cons_self r rest
        · rw [h]; exact hq
      · right; exact ⟨List.mem_cons_of_mem r hm, Nat.lt_trans hq hlt⟩
    · rw [if_neg hq]
      rcases ih acc with h | ⟨hm, hlt⟩
      · left; exact h
      · right; exact ⟨List.mem_cons_of_mem r hm, hlt⟩

theorem selectMaxFrom_find (rs : List NonceInfo) :
    ∀ acc : NonceInfo, acc.Difficulty < (selectMaxFrom acc rs).Difficulty →
      rs.find? (fun r => decide ((selectMaxFrom acc rs).Difficulty ≤ r.Difficulty))
        = some (selectMaxFrom acc rs) := by
  induction rs with
  | nil => intro acc h; simp only [selectMaxFrom] at h; omega
  | cons r rest ih =>
    intro acc h
    simp only [selectMaxFrom] at h ⊢
    by_cases hq : acc.Difficulty < r.Difficulty
    · simp only [if_pos hq] at h ⊢
      by_cases hbeat : r.Difficulty < (selectMaxFrom r rest).Difficulty
      · rw [List.find?_cons_of_neg _ (by simp; omega), ih r hbeat]
      · have hm : selectMaxFrom r rest = r :=
          selectMaxFrom_eq_of_le rest r (Nat.le_of_not_lt hbeat)
        simp only [hm]
        rw [List.find?_cons_of_pos _ (by simp)]
    · simp only [if_neg hq] at h ⊢
      have hr : r.Difficulty < (selectMaxFrom acc rest).Difficulty :=
        Nat.lt_of_le_of_lt (Nat.le_of_not_lt hq) h
      rw [List.find?_cons_of_neg _ (by simp; omega), ih acc h]

theorem mem_le_maxDifficulty (rs : List NonceInfo) :
    ∀ r ∈ rs, r.Difficulty ≤ maxDifficulty rs := by
  induction rs with
  | nil => intro r hr; exact absurd hr (List.not_mem_nil r)
  | cons q rest ih =>
    intro r hr
    simp only [maxDifficulty, List.map_cons, List.foldr_cons]
    rcases List.mem_cons.mp hr with h | h
    · subst h; exact Nat.le_max_left _ _
    · exact Nat.le_trans (ih r h) (Nat.le_max_right _ _)

theorem maxDifficulty_le (rs : List NonceInfo) (d : Nat)
    (h : ∀ r ∈ rs, r.Difficulty ≤ d) : maxDifficulty rs ≤ d := by
  induction rs with
  | nil => exact Nat.zero_le d
  | cons q rest ih =>
    simp only [maxDifficulty, List.map_cons, List.foldr_cons]
    refine Nat.max_le.mpr ⟨h q (List.mem_cons_self q rest), ?_⟩
    exact ih fun r hr => h r (List.mem_cons_of_mem q hr)

/-! ## Claim C2 — winner selection in continuous mode -/

/-- C2 (counterexample to the claim as stated): when every collected
result has difficulty 0, `nonceLoop` selects the zero placeholder
`mine.NonceInfo{}` rather than any collected result — the claim's
"selects the result with the maximum difficulty across all collected
results, first-encountered on a tie" would require the first collected
result to win. -/
theorem c2_counterexample :
    selectMax [⟨⟨0, 0, 0, 1⟩, 0, 5⟩, ⟨⟨0, 0, 0, 2⟩, 0, 7⟩] ∉
      [(⟨⟨0, 0, 0, 1⟩, 0, 5⟩ : NonceInfo), ⟨⟨0, 0, 0, 2⟩, 0, 7⟩] := by
  decide

/-- C2 (amended): in continuous mode, provided at least one collected
result has positive difficulty, the coordinator selects a collected
result whose difficulty is the maximum over all collected results, and on
a tie the first-encountered result in worker iteration order wins (the
selected result is what `find?` returns for the predicate "difficulty is
maximal"). -/
theorem c2_winner_first_max (rs : List NonceInfo)
    (h : ∃ r ∈ rs, 0 < r.Difficulty) :
    selectMax rs ∈ rs ∧
    (selectMax rs).Difficulty = maxDifficulty rs ∧
    rs.find? (fun r => decide (maxDifficulty rs ≤ r.Difficulty)) = some (selectMax rs) := by
  obtain ⟨r, hr, hpos⟩ := h
  have hlt : zeroNonceInfo.Difficulty < (selectMax rs).Difficulty := by
    have := selectMaxFrom_le rs zeroNonceInfo r hr
    simp only [zeroNonceInfo]
    simp only [selectMax] at this ⊢
    omega
  have hmem : selectMax rs ∈ rs := by
    rcases selectMaxFrom_mem rs zeroNonceInfo with hz | ⟨hm, _⟩
    · rw [selectMax, hz] at hlt; omega
    · exact hm
  have hmax : (selectMax rs).Difficulty = maxDifficulty rs := by
    refine Nat.le_antisymm (mem_le_maxDifficulty rs _ hmem) ?_
    exact maxDifficulty_le rs _ fun q hq => selectMaxFrom_le rs zeroNonceInfo q hq
  refine ⟨hmem, hmax, ?_⟩
  rw [← hmax]
  exact selectMaxFrom_find rs zeroNonceInfo hlt

/-- C2 witness: on the spec's own example, per-worker difficulties
[5, 9, 3, 9], the first of the two difficulty-9 results is selected. -/
theorem c2_witness :
    selectMax [⟨⟨0, 0, 0, 1⟩, 5, 0⟩, ⟨⟨0, 0, 0, 2⟩, 9, 0⟩,
        ⟨⟨0, 0, 0, 3⟩, 3, 0⟩, ⟨⟨0, 0, 0, 4⟩, 9, 0⟩] ∈
      [(⟨⟨0, 0, 0, 1⟩, 5, 0⟩ : NonceInfo), ⟨⟨0, 0, 0, 2⟩, 9, 0⟩,
        ⟨⟨0, 0, 0, 3⟩, 3, 0⟩, ⟨⟨0, 0, 0, 4⟩, 9, 0⟩] ∧
    (selectMax [⟨⟨0, 0, 0, 1⟩, 5, 0⟩, ⟨⟨0, 0, 0, 2⟩, 9, 0⟩,
        ⟨⟨0, 0, 0, 3⟩, 3, 0⟩, ⟨⟨0, 0, 0, 4⟩, 9, 0⟩]).Difficulty =
      maxDifficulty [⟨⟨0, 0, 0, 1⟩, 5, 0⟩, ⟨⟨0, 0, 0, 2⟩, 9, 0⟩,
        ⟨⟨0, 0, 0, 3⟩, 3, 0⟩, ⟨⟨0, 0, 0, 4⟩, 9, 0⟩] ∧
    List.find?
        (fun r => decide (maxDifficulty [⟨⟨0, 0, 0, 1⟩, 5, 0⟩, ⟨⟨0, 0, 0, 2⟩, 9, 0⟩,
          ⟨⟨0, 0, 0, 3⟩, 3, 0⟩, ⟨⟨0, 0, 0, 4⟩, 9, 0⟩] ≤ r.Difficulty))
        [⟨⟨0, 0, 0, 1⟩, 5, 0⟩, ⟨⟨0, 0, 0, 2⟩, 9, 0⟩,
          ⟨⟨0, 0, 0, 3⟩, 3, 0⟩, ⟨⟨0, 0, 0, 4⟩, 9, 0⟩] =
      some (selectMax [⟨⟨0, 0, 0, 1⟩, 5, 0⟩, ⟨⟨0, 0, 0, 2⟩, 9, 0⟩,
        ⟨⟨0, 0, 0, 3⟩, 3, 0⟩, ⟨⟨0, 0, 0, 4⟩, 9, 0⟩]) :=
  c2_winner_first_max
    [⟨⟨0, 0, 0, 1⟩, 5, 0⟩, ⟨⟨0, 0, 0, 2⟩, 9, 0⟩,
      ⟨⟨0, 0, 0, 3⟩, 3, 0⟩, ⟨⟨0, 0, 0, 4⟩, 9, 0⟩]
    (by decide)

/-! ## Claim C10 — the zero-valued winner accumulator -/

/-- C10: in continuous mode the winner accumulator starts as the
zero-valued `mine.NonceInfo{}` and is replaced only by a strictly greater
difficulty, so the selected value is either the placeholder itself or a
collected result of positive difficulty — a difficulty-0 collected result
is never assigned to the accumulator; and when every collected result has
difficulty 0 the coordinator verifies and prints the all-zero placeholder
rather than any worker's result. -/
theorem c10_zero_accumulator (rs : List NonceInfo) :
    (selectMax rs = zeroNonceInfo ∨
      (selectMax rs ∈ rs ∧ 0 < (selectMax rs).Difficulty)) ∧
    ((∀ r ∈ rs, r.Difficulty = 0) →
      selectMax rs = zeroNonceInfo ∧
      ∀ ok, nonceLoopTail ok (selectMax rs) =
        [OutEvent.verifyLog ok, OutEvent.printNonce zeroNonceInfo,
          OutEvent.printNodeID zeroNonceInfo.Hash]) := by
  constructor
  · rcases selectMaxFrom_mem rs zeroNonceInfo with hz | ⟨hm, hlt⟩
    · left; exact hz
    · right
      refine ⟨hm, ?_⟩
      simpa [selectMax, zeroNonceInfo] using hlt
  · intro hall
    have hz : selectMax rs = zeroNonceInfo := by
      rcases selectMaxFrom_mem rs zeroNonceInfo with hz | ⟨hm, hlt⟩
      · exact hz
      · have := hall _ hm
        apply selectMaxFrom_eq_of_le
        simp only [selectMax] at this
        omega
    exact ⟨hz, fun ok => by rw [hz]; rfl⟩

/-- C10 witness: a single collected result of difficulty 0 (with a
nonzero nonce and digest) is not selected; the placeholder wins. -/
theorem c10_witness :
    selectMax [⟨⟨0, 0, 0, 5⟩, 0, 9⟩] = zeroNonceInfo :=
  ((c10_zero_accumulator [⟨⟨0, 0, 0, 5⟩, 0, 9⟩]).2 (by decide)).1

/-! ## Claim C7 — verification-failure handling -/

/-- C7: when the winning result fails independent identity verification,
one-shot mode halts the process fatally — the result print lines are
never emitted — while continuous mode merely logs the verification
outcome and still exits normally, printing the best-known (possibly
invalid) result and never aborting. -/
theorem c7_verification_failure :
    (∀ r : NonceInfo,
      nonceGenTail false r = [OutEvent.fatalLog r] ∧
      OutEvent.printNonce r ∉ nonceGenTail false r ∧
      OutEvent.printNodeID r.Hash ∉ nonceGenTail false r) ∧
    (∀ (ok : Bool) (r : NonceInfo),
      OutEvent.verifyLog ok ∈ nonceLoopTail ok r ∧
      OutEvent.printNonce r ∈ nonceLoopTail ok r ∧
      OutEvent.printNodeID r.Hash ∈ nonceLoopTail ok r ∧
      ∀ q : NonceInfo, OutEvent.fatalLog q ∉ nonceLoopTail ok r) := by
  refine ⟨fun r => ⟨rfl, ?_, ?_⟩, fun ok r => ⟨?_, ?_, ?_, fun q => ?_⟩⟩ <;>
    simp [nonceGenTail, nonceLoopTail]

/-! ## Claim C9 — the progress-channel send -/

/-- C9 (counterexample to the claim as stated): with the 100-slot buffer
full, the worker's plain channel send blocks (`none`) instead of dropping
the sample — `progressSendSpec` records the claimed drop-when-full
behaviour, which the code does not implement. -/
theorem c9_counterexample :
    progressSend (List.replicate 100 0) 7 = none ∧
    progressSendSpec (List.replicate 100 0) 7 = List.replicate 100 0 := by
  constructor <;> rfl

/-- C9 (amended): the per-iteration progress report is a plain send on a
channel buffered to capacity 100: while the buffer holds fewer than 100
samples the send completes immediately without blocking, but when the
buffer is full the send blocks until the printer drains it (it can stall
the worker); no sample is ever dropped — every completed send appends the
sample to the buffer. -/
theorem c9_progress_send (buf : List Nat) (v : Nat) :
    (buf.length < 100 → progressSend buf v = some (buf ++ [v])) ∧
    (100 ≤ buf.length → progressSend buf v = none) ∧
    (∀ out, progressSend buf v = some out → out = buf ++ [v]) := by
  refine ⟨fun h => ?_, fun h => ?_, fun out h => ?_⟩
  · rw [progressSend, if_pos h]
  · rw [progressSend, if_neg (by omega)]
  · rw [progressSend] at h
    by_cases hb : buf.length < 100
    · rw [if_pos hb] at h
      exact (Option.some.injEq _ _ ▸ h).symm
    · rw [if_neg hb] at h
      exact absurd h (by simp)

/-- C9 witness: a send on a non-full buffer completes and appends. -/
theorem c9_witness : progressSend [1, 2] 5 = some [1, 2, 5] :=
  (c9_progress_send [1, 2] 5).1 (by decide)

/-! ## Claim C3 — result collection under cancellation -/

/-- C3: a continuous-mode worker stopped by cancellation before it has
found a qualifying nonce sends nothing on its result channel, and the
coordinator's blocking one-read-per-worker collection phase then never
completes.  Evaluated at a concrete failing input: target difficulty 5,
digests/difficulties growing from 0, stop observed at iteration 3 —
the worker exits without a send and `collectAll` cannot finish. -/
theorem c3_cancellation_no_send :
    computeBlockNonce hashD diffId [] 5 3 10 0 ⟨0, 0, 0, 0⟩ = none ∧
    collectAll [computeBlockNonce hashD diffId [] 5 3 10 0 ⟨0, 0, 0, 0⟩] = none := by
  constructor <;> rfl

/-! ## Claim C1 — one-shot worker success and verification consistency -/

/-- C1: for every one-shot worker, whenever the stop channel is open and
the difficulty of the current digest is at least the target, the worker
emits a `NonceInfo` whose nonce is the current nonce, whose digest equals
`HashBlock(publicKeyBytes, nonce)`, and whose difficulty equals that
digest's difficulty, and then terminates (the emitted difficulty is the
final progress sample); consequently any `NonceInfo` the search produces
satisfies: re-hashing its (data, nonce) reproduces the recorded digest
and difficulty, and that difficulty meets the target. -/
theorem c1_result_consistency (hashBlock : List Nat → Uint256 → Nat)
    (diffOf : Nat → Nat) (pk : List Nat) (target : Nat) (stop : Nat → Bool) :
    (∀ fuel k j, stop k = false → target ≤ diffOf (hashBlock pk j) →
      nonceSearch hashBlock diffOf pk target stop (fuel + 1) k j =
        (some ⟨j, diffOf (hashBlock pk j), hashBlock pk j⟩, [diffOf (hashBlock pk j)])) ∧
    (∀ fuel k j r prog,
      nonceSearch hashBlock diffOf pk target stop fuel k j = (some r, prog) →
      r.Hash = hashBlock pk r.Nonce ∧
      r.Difficulty = diffOf (hashBlock pk r.Nonce) ∧
      target ≤ r.Difficulty) := by
  constructor
  · intro fuel k j hstop htar
    simp [nonceSearch, hstop, htar]
  · intro fuel
    induction fuel with
    | zero =>
      intro k j r prog h
      simp [nonceSearch] at h
    | succ fuel ih =>
      intro k j r prog h
      rw [nonceSearch] at h
      by_cases hstop : stop k = true
      · simp [hstop] at h
      · simp only [Bool.not_eq_true] at hstop
        simp only [hstop, Bool.false_eq_true, if_false] at h
        by_cases htar : target ≤ diffOf (hashBlock pk j)
        · simp only [if_pos htar, Prod.mk.injEq, Option.some.injEq] at h
          rw [← h.1]
          exact ⟨rfl, rfl, htar⟩
        · simp only [if_neg htar] at h
          rcases hrest : nonceSearch hashBlock diffOf pk target stop fuel (k + 1)
              (Uint256.inc j) with ⟨ores, prg⟩
          rw [hrest] at h
          simp only [Prod.mk.injEq] at h
          exact ih (k + 1) (Uint256.inc j) r prg (by rw [hrest, h.1])

/-- C1 witness: with the digest being the low limb of the nonce and the
identity difficulty measure, target 1, starting nonce 3, the worker
emits on its first try and the emitted record is reproducible. -/
theorem c1_witness :
    (nonceSearch hashD diffId [] 1 stopNever 1 0 ⟨0, 0, 0, 3⟩ =
      (some ⟨⟨0, 0, 0, 3⟩, diffId (hashD [] ⟨0, 0, 0, 3⟩), hashD [] ⟨0, 0, 0, 3⟩⟩,
        [diffId (hashD [] ⟨0, 0, 0, 3⟩)])) ∧
    ((⟨⟨0, 0, 0, 3⟩, 3, 3⟩ : NonceInfo).Hash =
        hashD [] (⟨⟨0, 0, 0, 3⟩, 3, 3⟩ : NonceInfo).Nonce ∧
      (⟨⟨0, 0, 0, 3⟩, 3, 3⟩ : NonceInfo).Difficulty =
        diffId (hashD [] (⟨⟨0, 0, 0, 3⟩, 3, 3⟩ : NonceInfo).Nonce) ∧
      1 ≤ (⟨⟨0, 0, 0, 3⟩, 3, 3⟩ : NonceInfo).Difficulty) :=
  ⟨(c1_result_consistency hashD diffId [] 1 stopNever).1 0 0 ⟨0, 0, 0, 3⟩ rfl (by decide),
    (c1_result_consistency hashD diffId [] 1 stopNever).2 1 0 ⟨0, 0, 0, 3⟩
      ⟨⟨0, 0, 0, 3⟩, 3, 3⟩ [3] (by rfl)⟩

/-! ## Claim C8 — difficulty target 0 succeeds immediately -/

/-- C8: with a target difficulty of 0 and any hash oracle and public-key
bytes, every one-shot worker succeeds on the first nonce it tries (any
digest's difficulty is ≥ 0), so the one-shot run terminates and returns a
result whose nonce is a worker's starting nonce (worker 0's, as first
delivery); difficulty 0 is not an error. -/
theorem c8_zero_difficulty_terminates (hashBlock : List Nat → Uint256 → Nat)
    (diffOf : Nat → Nat) (pk : List Nat) (n fuel : Nat) (offs : Nat → Nat)
    (hn : 1 ≤ n) (hf : 1 ≤ fuel) :
    (∀ i, i < n →
      (nonceSearch hashBlock diffOf pk 0 stopNever fuel 0 (nonceGenStart n i (offs i))).1 =
        some ⟨nonceGenStart n i (offs i),
          diffOf (hashBlock pk (nonceGenStart n i (offs i))),
          hashBlock pk (nonceGenStart n i (offs i))⟩) ∧
    nonceGenRun hashBlock diffOf pk 0 n fuel offs =
      some ⟨nonceGenStart n 0 (offs 0),
        diffOf (hashBlock pk (nonceGenStart n 0 (offs 0))),
        hashBlock pk (nonceGenStart n 0 (offs 0))⟩ := by
  obtain ⟨f, rfl⟩ : ∃ f, fuel = f + 1 := ⟨fuel - 1, by omega⟩
  have hworker : ∀ s : Uint256,
      nonceSearch hashBlock diffOf pk 0 stopNever (f + 1) 0 s =
        (some ⟨s, diffOf (hashBlock pk s), hashBlock pk s⟩,
          [diffOf (hashBlock pk s)]) := by
    intro s
    simp [nonceSearch, stopNever]
  refine ⟨fun i _ => by rw [hworker], ?_⟩
  obtain ⟨m, rfl⟩ : ∃ m, n = m + 1 := ⟨n - 1, by omega⟩
  rw [nonceGenRun, List.range_succ_eq_map, List.map_cons, hworker, firstResult]

/-- C8 witness: two workers, fuel 1, zero offsets, concrete oracle — the
run returns worker 0's starting nonce. -/
theorem c8_witness :
    nonceGenRun hashD diffId [] 0 2 1 offsZero =
      some ⟨nonceGenStart 2 0 (offsZero 0),
        diffId (hashD [] (nonceGenStart 2 0 (offsZero 0))),
        hashD [] (nonceGenStart 2 0 (offsZero 0))⟩ :=
  (c8_zero_difficulty_terminates hashD diffId [] 2 1 offsZero (by decide) (by decide)).2

/-! ## Lemmas about the partition start values -/

/-- For `i < n`, the start bit `i * (256 / n)` stays below 256. -/
theorem startBit_le (n i : Nat) (hn : 1 ≤ n) (hi : i < n) :
    i * (256 / n) ≤ 255 := by
  rcases Nat.eq_zero_or_pos (256 / n) with hq | hq
  · simp [hq]
  · have h1 : i * (256 / n) ≤ (n - 1) * (256 / n) :=
      Nat.mul_le_mul_right _ (by omega)
    have h2 : ((n - 1) + 1) * (256 / n) ≤ 256 := by
      rw [Nat.sub_add_cancel hn, Nat.mul_comm]
      exact Nat.div_mul_le_self 256 n
    rw [Nat.succ_mul] at h2
    omega

/-- The value of a one-shot starting nonce: a single bit at shift
`i * (256 / n) % 64` inside limb number `i * (256 / n) / 64` (counted
from the most significant limb `A`), plus the jitter, i.e. the limb
content times the limb weight `2 ^ (64 * (3 - i * (256 / n) / 64))`. -/
theorem nonceGenStart_val (n i off : Nat) (hn : 1 ≤ n) (hi : i < n) :
    (nonceGenStart n i off).val =
      (2 ^ (i * (256 / n) % 64) + off % 2 ^ 32) *
        2 ^ (64 * (3 - i * (256 / n) / 64)) := by
  have hs : i * (256 / n) ≤ 255 := startBit_le n i hn hi
  have hb1 : 2 ^ (i * (256 / n) % 64) ≤ 2 ^ 63 :=
    Nat.pow_le_pow_right (by norm_num) (by omega)
  have hb2 : off % 2 ^ 32 < 2 ^ 32 := Nat.mod_lt off (by norm_num)
  have hlimb : (2 ^ (i * (256 / n) % 64) + off % 2 ^ 32) % u64 =
      2 ^ (i * (256 / n) % 64) + off % 2 ^ 32 := by
    apply Nat.mod_eq_of_lt
    have : (2 : Nat) ^ 63 + 2 ^ 32 < 2 ^ 64 := by norm_num
    rw [u64]
    omega
  have hp : i * (256 / n) / 64 = 0 ∨ i * (256 / n) / 64 = 1 ∨
      i * (256 / n) / 64 = 2 ∨ i * (256 / n) / 64 = 3 := by omega
  rcases hp with hp | hp | hp | hp <;>
    (simp [nonceGenStart, Uint256.val, hp, u64]; omega)

/-- The value of a continuous-mode starting nonce: the stride times the
worker index plus the jitter, wrapped at 64 bits, sitting in the
least-significant limb. -/
theorem nonceLoopStart_val (n i off : Nat) :
    (nonceLoopStart n i off).val =
      (nonceLoopStep n * i + off % 2 ^ 32) % 2 ^ 64 := by
  simp [nonceLoopStart, Uint256.val, u64]

/-! ## Claim C4 — the linear (continuous-mode) partition stride -/

/-- C4 (counterexample to the claim as stated): the stride is
`math.MaxUint64 / cpuCount`, not the maximum representable 256-bit value
divided by the worker count — already for one worker the two differ. -/
theorem c4_counterexample : nonceLoopStep 1 ≠ (2 ^ 256 - 1) / 1 := by decide

/-- C4 (amended): in continuous mode the stride `step` is the maximum
representable 64-bit value divided by the worker count `n`, and worker
`i`'s starting nonce value is `step * i` plus a small random offset
(< 2^32), wrapped at 64 bits and held in the least-significant limb. -/
theorem c4_linear_partition (n i off : Nat) (hn : 1 ≤ n) (hi : i < n) :
    nonceLoopStep n = (2 ^ 64 - 1) / n ∧
    (nonceLoopStart n i off).val =
      (nonceLoopStep n * i + off % 2 ^ 32) % 2 ^ 64 := by
  exact ⟨rfl, nonceLoopStart_val n i off⟩

/-- C4 witness: two workers, worker 1, offset 5. -/
theorem c4_witness :
    nonceLoopStep 2 = (2 ^ 64 - 1) / 2 ∧
    (nonceLoopStart 2 1 5).val =
      (nonceLoopStep 2 * 1 + 5 % 2 ^ 32) % 2 ^ 64 :=
  c4_linear_partition 2 1 5 (by decide) (by decide)

/-! ## Claim C5 — the bit-sliced (one-shot) partition -/

/-- C5 (counterexample to the claim as stated): with 4 workers and zero
jitter, worker 1's starting nonce is `2 ^ 128`, not `2 ^ 64` — the single
set bit is not at absolute position `i * (256 / N)`, because limb number
`startBit / 64` is the (4 - startBit / 64)-th most significant limb. -/
theorem c5_counterexample : (nonceGenStart 4 1 0).val ≠ 2 ^ (1 * (256 / 4)) := by
  decide

/-- C5 (amended): in one-shot mode the 256 bits are divided into `n`
contiguous ranges of `256 / n` bits, and worker `i`'s starting nonce has
a single bit set at shift `(i * (256 / n)) % 64` within limb number
`(i * (256 / n)) / 64` counted from the most significant limb — absolute
bit position `64 * (3 - (i * (256 / n)) / 64) + (i * (256 / n)) % 64` —
plus a random jitter (< 2^32) added into that same limb. -/
theorem c5_bit_sliced_partition (n i off : Nat) (hn : 1 ≤ n) (hi : i < n) :
    (nonceGenStart n i off).val =
      (2 ^ (i * (256 / n) % 64) + off % 2 ^ 32) *
        2 ^ (64 * (3 - i * (256 / n) / 64)) :=
  nonceGenStart_val n i off hn hi

/-- C5 witness: four workers, worker 1, jitter 7. -/
theorem c5_witness :
    (nonceGenStart 4 1 7).val =
      (2 ^ (1 * (256 / 4) % 64) + 7 % 2 ^ 32) *
        2 ^ (64 * (3 - 1 * (256 / 4) / 64)) :=
  c5_bit_sliced_partition 4 1 7 (by decide) (by decide)

/-! ## Claim C6 — partition disjointness -/

/-- C6 (counterexample to the claim as stated): with 8 workers, workers 0
and 1 both start in the most significant limb (shifts 0 and 32), and the
jitters `2^32 - 1` and `0` make their starting nonces collide — the
bit-sliced starting nonces are not pairwise distinct for every worker
count and every random draw. -/
theorem c6_counterexample :
    (nonceGenStart 8 0 (2 ^ 32 - 1)).val = (nonceGenStart 8 1 0).val := by
  decide

/-- C6 (amended): for the linear scheme with worker count `n < 2^32` the
starting nonces are strictly increasing in worker index (hence pairwise
distinct) whatever the per-worker random offsets; for the bit-sliced
scheme the starting nonces are pairwise distinct whenever `n ≤ 7` — any
two workers sharing a limb then have set-bit shifts at least 36 bits
apart, beyond the reach of the 32-bit jitter — while from `n = 8` on two
workers can share a limb with a 32-bit shift gap and suitable jitters
make their starting nonces collide. -/
theorem c6_partition_distinct (n : Nat) (hn : 1 ≤ n) :
    (∀ i j offi offj, i < j → j < n → n < 2 ^ 32 →
      (nonceLoopStart n i offi).val < (nonceLoopStart n j offj).val) ∧
    (∀ i j offi offj, i < j → j < n → n ≤ 7 →
      (nonceGenStart n i offi).val ≠ (nonceGenStart n j offj).val) := by
  constructor
  · intro i j offi offj hij hj hn32
    rw [nonceLoopStart_val, nonceLoopStart_val]
    have hst : 2 ^ 32 + 1 ≤ nonceLoopStep n := by
      have h1 : (2 ^ 64 - 1) / (2 ^ 32 - 1) ≤ (2 ^ 64 - 1) / n :=
        Nat.div_le_div_left (by omega) hn
      have h2 : (2 ^ 64 - 1) / (2 ^ 32 - 1) = 2 ^ 32 + 1 := by decide
      rw [nonceLoopStep, u64]
      omega
    have h3 : nonceLoopStep n * n ≤ 2 ^ 64 - 1 := by
      rw [nonceLoopStep, u64]
      exact Nat.div_mul_le_self _ _
    have h1 : nonceLoopStep n * i + nonceLoopStep n ≤ nonceLoopStep n * j := by
      have := Nat.mul_le_mul_left (nonceLoopStep n) (show i + 1 ≤ j by omega)
      rw [Nat.mul_add, Nat.mul_one] at this
      exact this
    have h2 : nonceLoopStep n * j + nonceLoopStep n ≤ nonceLoopStep n * n := by
      have := Nat.mul_le_mul_left (nonceLoopStep n) (show j + 1 ≤ n by omega)
      rw [Nat.mul_add, Nat.mul_one] at this
      exact this
    generalize ha : nonceLoopStep n * i = a at h1 ⊢
    generalize hb : nonceLoopStep n * j = b at h1 h2 ⊢
    generalize hc : nonceLoopStep n * n = c at h2 h3
    generalize hsg : nonceLoopStep n = st at hst h1 h2
    omega
  · intro i j offi offj hij hj hn7
    rw [nonceGenStart_val n i offi hn (by omega), nonceGenStart_val n j offj hn hj]
    interval_cases n <;> interval_cases j <;> interval_cases i <;>
      (norm_num; omega)

/-- C6 witness: five workers — linear starts of workers 0 and 1 are
ordered, and bit-sliced starts of workers 0 and 1 are distinct even
though both sit in the most significant limb (shifts 0 and 51). -/
theorem c6_witness :
    (nonceLoopStart 5 0 3).val < (nonceLoopStart 5 1 9).val ∧
    (nonceGenStart 5 0 3).val ≠ (nonceGenStart 5 1 9).val :=
  ⟨(c6_partition_distinct 5 (by decide)).1 0 1 3 9 (by decide) (by decide) (by decide),
    (c6_partition_distinct 5 (by decide)).2 0 1 3 9 (by decide) (by decide) (by decide)⟩

end SQLess
